import Mathlib

/-!
Verification of the CPE candidate-field core of the syft repository
(file `syft/pkg/cataloger/common/cpe/java.go` and its RPM companion).

Go strings are embedded as Lean `String`, and every string primitive the
source uses (`strings.Split`, `strings.TrimSpace`, `strings.ToLower`,
`strings.HasPrefix`, `strings.HasSuffix`, `strings.Contains`) is given an
executable model over `List Char` so that all definitions evaluate by
`decide` / `rfl`.  Go maps of the manifest are embedded as association
lists (keys unique by convention); the named-section map is embedded as
the list of its section values, which is faithful for every membership
property proved here.  The `strset` string set used by the product
builder is embedded as an insertion-ordered duplicate-free list: this is
faithful for membership and deduplication (the only order-independent
facts proved about it).
-/

set_option autoImplicit false

namespace SyftCpe

/-- Model of Go `unicode.IsSpace` restricted to the whitespace characters
relevant here (space, tab, newline, carriage return). -/
def isWS (c : Char) : Bool := c.isWhitespace

/-- Split a character list at every occurrence of the separator character,
keeping empty fields, as Go `strings.Split` does for a one-character
separator. -/
def splitChars (c : Char) : List Char → List (List Char)
  | [] => [[]]
  | a :: as =>
    let r := splitChars c as
    if a = c then [] :: r
    else
      match r with
      | [] => [[a]]
      | h :: t => (a :: h) :: t

/-- Model of Go `strings.Split(s, sep)` for a one-character separator. -/
def splitOnChar (c : Char) (s : String) : List String :=
  (splitChars c s.toList).map String.mk

/-- Drop leading and trailing whitespace from a character list. -/
def trimChars (l : List Char) : List Char :=
  ((l.dropWhile isWS).reverse.dropWhile isWS).reverse

/-- Model of Go `strings.TrimSpace`. -/
def trimStr (s : String) : String := String.mk (trimChars s.toList)

/-- Model of Go `strings.ToLower` (ASCII case folding). -/
def lowerStr (s : String) : String := String.mk (s.toList.map Char.toLower)

/-- Model of Go `strings.HasPrefix(value, pre)`. -/
def strStartsWith (value pre : String) : Bool :=
  List.isPrefixOf pre.toList value.toList

/-- Model of Go `strings.HasSuffix(value, suf)`. -/
def strEndsWith (value suf : String) : Bool :=
  List.isSuffixOf suf.toList value.toList

/-- Substring test on character lists (needle occurs contiguously). -/
def listHasSub (needle : List Char) : List Char → Bool
  | [] => needle.isEmpty
  | h :: t => List.isPrefixOf needle (h :: t) || listHasSub needle t

/-- Model of Go `strings.Contains(s, sub)`. -/
def strContains (s sub : String) : Bool := listHasSub sub.toList s.toList

/-- The reverse-domain style name components recognized by the domain
classifier (`domains` in java.go). -/
def domains : List String := ["com", "org", "net", "io"]

/-- Modelled from the spec: the helper `internal.HasAnyOfPrefixes` used by
`startsWithDomain` is not part of the provided source.  Per the spec
(Domain Classifier) a value passes for a given domain word iff it begins,
case-sensitively, with that literal word immediately followed by a
non-alphanumeric boundary consistent with dotted-namespace syntax (end of
string also counts as a boundary). -/
def domainBoundaryAt (value d : String) : Bool :=
  List.isPrefixOf d.toList value.toList &&
    (match value.toList.drop d.toList.length with
     | [] => true
     | c :: _ => !c.isAlphanum)

/-- `startsWithDomain` from java.go, with the missing
`internal.HasAnyOfPrefixes` part modelled from the spec via
`domainBoundaryAt`. -/
def startsWithDomain (value : String) : Bool :=
  domains.any (domainBoundaryAt value)

/-- `forbiddenProductGroupIDFields` from java.go. -/
def forbiddenProductGroupIDFields : List String := ["plugin", "plugins", "client"]

/-- `forbiddenVendorGroupIDFields` from java.go. -/
def forbiddenVendorGroupIDFields : List String := ["plugin", "plugins"]

/-- `javaManifestGroupIDFields` from java.go. -/
def javaManifestGroupIDFields : List String :=
  ["Extension-Name", "Automatic-Module-Name", "Specification-Vendor",
   "Implementation-Vendor", "Bundle-SymbolicName", "Implementation-Vendor-Id",
   "Package", "Implementation-Title", "Main-Class", "Bundle-Activator"]

/-- `javaManifestNameFields` from java.go. -/
def javaManifestNameFields : List String :=
  ["Specification-Vendor", "Implementation-Vendor"]

/-- `fieldCandidate` of the repository: one proposed vendor string together
with the flag forbidding further sub-selection splitting downstream. -/
structure fieldCandidate where
  value : String
  disallowSubSelections : Bool
  deriving DecidableEq, Repr

/-- The candidate-set container, embedded as its insertion-ordered list of
entries (one entry per value). -/
abbrev fieldCandidateSet := List fieldCandidate

/-- Modelled from the spec: the `fieldCandidateSet.add` operation is not part
of the provided source.  Per the spec it inserts keyed by value, keeps
insertion order, never adds an empty value, and on a duplicate value the
stored `disallowSubSelections` flag is the monotonic OR of old and new. -/
def fcsAdd (s : fieldCandidateSet) (c : fieldCandidate) : fieldCandidateSet :=
  if c.value = "" then s
  else if (List.any s fun e => e.value = c.value) then
    List.map (fun e =>
      if e.value = c.value then
        { e with disallowSubSelections := e.disallowSubSelections || c.disallowSubSelections }
      else e) s
  else s ++ [c]

/-- Add every candidate of a list in order. -/
def fcsAddAll (s : fieldCandidateSet) (cs : List fieldCandidate) : fieldCandidateSet :=
  cs.foldl fcsAdd s

/-- Modelled from the spec: a fresh empty candidate set
(`newCPRFieldCandidateSet`). -/
def newCPRFieldCandidateSet : fieldCandidateSet := []

/-- Modelled from the spec: `newCPRFieldCandidateFromSets` merges the given
sets in order into a fresh set, first-seen order, monotonic flag merge. -/
def newCPRFieldCandidateFromSets (sets : List fieldCandidateSet) : fieldCandidateSet :=
  sets.foldl fcsAddAll newCPRFieldCandidateSet

/-- The candidate values of a set, in stored order. -/
def fcsValues (s : fieldCandidateSet) : List String :=
  List.map (fun e => e.value) s

/-- Model of `strset.Add`: insertion-ordered, duplicate-free accumulation of
strings (ordering is this embedding's determinization of the Go hash set;
only membership and dedup facts are proved about it). -/
def strsetAdd (l : List String) (x : String) : List String :=
  if x ∈ l then l else l ++ [x]

/-- Index the elements of a list starting at a given counter, as Go's
`for i, x := range xs` does (with counter 0). -/
def enumFromN {α : Type} : Nat → List α → List (Nat × α)
  | _, [] => []
  | n, a :: as => (n, a) :: enumFromN (n + 1) as

/-- Drop trailing empty segments of a split token (the spec's "trailing
separators stripped" applied at segment level). -/
def dropTrailingEmpty (l : List String) : List String :=
  (l.reverse.dropWhile (fun s => s = "")).reverse

/-- Join segments back with the hyphen separator. -/
def joinDashes : List String → String
  | [] => ""
  | [s] => s
  | s :: rest => s ++ "-" ++ joinDashes rest

/-- Modelled from the spec: `generateSubSelections` is not part of the
provided source.  Per the spec (Sub-Selection Generator) it returns the
token itself first, followed by progressively shorter forms obtained by
dropping trailing hyphen-delimited segments one at a time, each shortened
form stripped of trailing separators, down to (but not below) a single
non-empty segment. -/
def generateSubSelections (token : String) : List String :=
  let segs := splitOnChar '-' token
  token ::
    ((List.range (segs.length - 1)).reverse.filterMap fun k =>
      let pre := dropTrailingEmpty (segs.take (k + 1))
      if pre.isEmpty then none else some (joinDashes pre))

/-- Modelled from the spec: name normalization is not part of the provided
source.  Per the spec it trims, lowercases and collapses the value to a
lowercase-with-separator form (whitespace-delimited words joined by an
underscore); empty or whitespace-only input yields the empty string. -/
def normalizeName (s : String) : String :=
  String.intercalate ("_") (((splitOnChar ' ' (lowerStr (trimStr s)))).filter fun w => w ≠ "")

/-- Modelled from the spec: title normalization is not part of the provided
source.  Per the spec it trims the value (display-title form); empty or
whitespace-only input yields the empty string. -/
def normalizeTitle (s : String) : String := trimStr s

/-- `pkg.PomProperties`, restricted to the fields read by this core. -/
structure PomProperties where
  GroupID : String
  ArtifactID : String
  deriving DecidableEq, Repr

/-- One manifest key-value mapping (Go `map[string]string`, keys unique). -/
def ManifestMap := List (String × String)

/-- Lookup of a manifest mapping, as Go `value, exists := m[name]`. -/
def lookupField (m : ManifestMap) (k : String) : Option String :=
  (m.find? fun p => p.1 = k).map fun p => p.2

/-- `pkg.JavaManifest`: a primary mapping plus named sections (embedded as
the list of section mappings, since only section values are read). -/
structure JavaManifest where
  Main : ManifestMap
  NamedSections : List ManifestMap

/-- `pkg.JavaMetadata`, restricted to the fields read by this core. -/
structure JavaMetadata where
  Manifest : Option JavaManifest
  PomProperties : Option PomProperties

/-- `pkg.RpmdbMetadata`, restricted to the field read by this core. -/
structure RpmdbMetadata where
  Vendor : String
  deriving DecidableEq, Repr

/-- The metadata variants a package may carry, with a case for an absent
or non-matching variant (Go type assertion failure). -/
inductive PackageMetadata where
  | java (m : JavaMetadata)
  | rpmdb (m : RpmdbMetadata)
  | absent
  | mismatched

/-- `pkg.Package`, restricted to the metadata field read by this core. -/
structure Package where
  Metadata : PackageMetadata

/-- `groupIDsFromPomProperties` from java.go. -/
def groupIDsFromPomProperties (properties : Option PomProperties) : List String :=
  match properties with
  | none => []
  | some properties =>
    (if startsWithDomain properties.GroupID then [trimStr properties.GroupID] else []) ++
      (if startsWithDomain properties.ArtifactID ∧
          (splitOnChar '.' properties.ArtifactID).length > 1 then
        [trimStr properties.ArtifactID]
      else [])

/-- One conditional append step of `groupIDsFromJavaManifest`: a value found
for the field name is appended iff it passes the domain classifier. -/
def appendIfDomain (groupIDs : List String) : Option String → List String
  | some value => if startsWithDomain value then groupIDs ++ [value] else groupIDs
  | none => groupIDs

/-- `groupIDsFromJavaManifest` from java.go. -/
def groupIDsFromJavaManifest (manifest : Option JavaManifest) : List String :=
  match manifest with
  | none => []
  | some manifest =>
    javaManifestGroupIDFields.foldl
      (fun groupIDs name =>
        manifest.NamedSections.foldl
          (fun acc sec => appendIfDomain acc (lookupField sec name))
          (appendIfDomain groupIDs (lookupField manifest.Main name)))
      []

/-- `groupIDsFromJavaPackage` from java.go. -/
def groupIDsFromJavaPackage (p : Package) : List String :=
  match p.Metadata with
  | .java metadata =>
    groupIDsFromPomProperties metadata.PomProperties ++
      groupIDsFromJavaManifest metadata.Manifest
  | _ => []

/-- `artifactIDFromJavaPackage` from java.go. -/
def artifactIDFromJavaPackage (p : Package) : String :=
  match p.Metadata with
  | .java metadata =>
    match metadata.PomProperties with
    | none => ""
    | some properties =>
      let artifactID := trimStr properties.ArtifactID
      if startsWithDomain artifactID ∧ (splitOnChar '.' artifactID).length > 1 then ""
      else artifactID
  | _ => ""

/-- The emission condition of one split field inside the loop of
`productsFromArtifactAndGroupIDs` (the `continue` chain folded into one
boolean): non-empty after trimming, not a forbidden product field, index
at least 2, and the artifact ID is empty or the field could be the project
name while the package is not plugin-flagged. -/
def productFieldEmit (artifactID : String) (isPlugin : Bool) (i : Nat) (rawField : String) : Bool :=
  let field := trimStr rawField
  if field.length = 0 then false
  else if forbiddenProductGroupIDFields.contains (lowerStr field) then false
  else if i ≤ 1 then false
  else
    let couldBeProjectName := strStartsWith artifactID field || strEndsWith artifactID field
    artifactID = "" || (couldBeProjectName && !isPlugin)

/-- The inner loop of `productsFromArtifactAndGroupIDs` for one group ID. -/
def addProductFields (artifactID : String) (products : List String) (groupID : String) : List String :=
  let isPlugin := strContains artifactID ("plugin") || strContains groupID ("plugin")
  (enumFromN 0 (splitOnChar '.' groupID)).foldl
    (fun acc p =>
      if productFieldEmit artifactID isPlugin p.1 p.2 then strsetAdd acc (trimStr p.2)
      else acc)
    products

/-- `productsFromArtifactAndGroupIDs` from java.go (the `strset` embedded as
an insertion-ordered duplicate-free list). -/
def productsFromArtifactAndGroupIDs (artifactID : String) (groupIDs : List String) : List String :=
  let products := if artifactID ≠ "" then strsetAdd [] artifactID else []
  groupIDs.foldl (addProductFields artifactID) products

/-- One conditional vendor add of `vendorsFromJavaManifestNames`: a value
found for the field name is name-normalized and added (flag set) iff it
does not pass the domain classifier. -/
def addManifestNameVendor (vendors : fieldCandidateSet) : Option String → fieldCandidateSet
  | some value =>
    if !startsWithDomain value then
      fcsAdd vendors { value := normalizeName value, disallowSubSelections := true }
    else vendors
  | none => vendors

/-- `vendorsFromJavaManifestNames` from java.go. -/
def vendorsFromJavaManifestNames (p : Package) : fieldCandidateSet :=
  match p.Metadata with
  | .java metadata =>
    match metadata.Manifest with
    | none => newCPRFieldCandidateSet
    | some manifest =>
      javaManifestNameFields.foldl
        (fun vendors name =>
          manifest.NamedSections.foldl
            (fun acc sec => addManifestNameVendor acc (lookupField sec name))
            (addManifestNameVendor vendors (lookupField manifest.Main name)))
        newCPRFieldCandidateSet
  | _ => newCPRFieldCandidateSet

/-- The emission condition of one split field inside the loop of
`vendorsFromGroupIDs`: non-empty after trimming, not a forbidden vendor
field, index not 0. -/
def vendorFieldEmit (i : Nat) (rawField : String) : Bool :=
  let field := trimStr rawField
  if field.length = 0 then false
  else if forbiddenVendorGroupIDFields.contains (lowerStr field) then false
  else if i = 0 then false
  else true

/-- `vendorsFromGroupIDs` from java.go. -/
def vendorsFromGroupIDs (groupIDs : List String) : fieldCandidateSet :=
  groupIDs.foldl
    (fun vendors groupID =>
      (enumFromN 0 (splitOnChar '.' groupID)).foldl
        (fun acc p =>
          if vendorFieldEmit p.1 p.2 then
            fcsAddAll acc
              ((generateSubSelections (trimStr p.2)).map fun value =>
                { value := value, disallowSubSelections := true })
          else acc)
        vendors)
    newCPRFieldCandidateSet

/-- `candidateProductsForJava` from java.go. -/
def candidateProductsForJava (p : Package) : List String :=
  productsFromArtifactAndGroupIDs (artifactIDFromJavaPackage p) (groupIDsFromJavaPackage p)

/-- `candidateVendorsForJava` from java.go. -/
def candidateVendorsForJava (p : Package) : fieldCandidateSet :=
  newCPRFieldCandidateFromSets
    [vendorsFromGroupIDs (groupIDsFromJavaPackage p), vendorsFromJavaManifestNames p]

/-- `candidateVendorsForRPM` from the RPM companion file (the `nil` returned
on a metadata type mismatch reads as the empty set). -/
def candidateVendorsForRPM (p : Package) : fieldCandidateSet :=
  match p.Metadata with
  | .rpmdb metadata =>
    if metadata.Vendor ≠ "" then
      fcsAdd newCPRFieldCandidateSet
        { value := normalizeTitle metadata.Vendor, disallowSubSelections := true }
    else newCPRFieldCandidateSet
  | _ => newCPRFieldCandidateSet

/-! ### Generic lemmas about the fold-with-accumulate shape of the source loops -/

theorem foldl_inv {α β : Type} (Inv : α → Prop) (h : α → β → α)
    (H : ∀ s b, Inv s → Inv (h s b)) :
    ∀ (l : List β) (s : α), Inv s → Inv (l.foldl h s) := by
  intro l
  induction l with
  | nil => intro s hs; simpa using hs
  | cons b t ih =>
    intro s hs
    simpa using ih (h s b) (H s b hs)

theorem foldl_mem_iff {α β γ : Type} (μ : α → γ → Prop) (P : β → γ → Prop) (h : α → β → α)
    (H : ∀ s b x, μ (h s b) x ↔ μ s x ∨ P b x) :
    ∀ (l : List β) (s : α) (x : γ), μ (l.foldl h s) x ↔ μ s x ∨ ∃ b ∈ l, P b x := by
  intro l
  induction l with
  | nil => intro s x; simp
  | cons b t ih =>
    intro s x
    have := ih (h s b) x
    simp only [List.foldl_cons] at *
    rw [this, H]
    constructor
    · rintro ((hs | hb) | ⟨b', hb', hP⟩)
      · exact Or.inl hs
      · exact Or.inr ⟨b, by simp, hb⟩
      · exact Or.inr ⟨b', by simp [hb'], hP⟩
    · rintro (hs | ⟨b', hb', hP⟩)
      · exact Or.inl (Or.inl hs)
      · rcases List.mem_cons.mp hb' with h1 | h1
        · subst h1; exact Or.inl (Or.inr hP)
        · exact Or.inr ⟨b', h1, hP⟩

theorem mem_enumFromN {α : Type} :
    ∀ (l : List α) (n : Nat) (p : Nat × α),
      p ∈ enumFromN n l ↔ ∃ j, p.1 = n + j ∧ l[j]? = some p.2 := by
  intro l
  induction l with
  | nil => intro n p; simp [enumFromN]
  | cons b t ih =>
    intro n p
    simp only [enumFromN, List.mem_cons, ih]
    constructor
    · rintro (rfl | ⟨j, hj, hget⟩)
      · exact ⟨0, by simp⟩
      · exact ⟨j + 1, by omega, by simpa using hget⟩
    · rintro ⟨j, hj, hget⟩
      match j, hget with
      | 0, hget =>
        left
        simp only [List.getElem?_cons_zero, Option.some.injEq] at hget
        have : p.1 = n := by omega
        cases p
        simp_all
      | j' + 1, hget =>
        right
        exact ⟨j', by omega, by simpa using hget⟩

theorem exists_mem_enumFromN {α : Type} (l : List α) (Q : Nat → α → Prop) :
    (∃ p ∈ enumFromN 0 l, Q p.1 p.2) ↔ ∃ i raw, l[i]? = some raw ∧ Q i raw := by
  constructor
  · rintro ⟨⟨i, raw⟩, hmem, hQ⟩
    rcases (mem_enumFromN l 0 (i, raw)).mp hmem with ⟨j, hj, hget⟩
    simp only at hj hget
    exact ⟨i, raw, by simpa [hj] using hget, hQ⟩
  · rintro ⟨i, raw, hget, hQ⟩
    refine ⟨(i, raw), ?_, hQ⟩
    exact (mem_enumFromN l 0 (i, raw)).mpr ⟨i, by simp, hget⟩

/-! ### Lemmas about the string-set model -/

theorem mem_strsetAdd (l : List String) (x v : String) :
    v ∈ strsetAdd l x ↔ v ∈ l ∨ v = x := by
  unfold strsetAdd
  split
  · rename_i hin
    constructor
    · intro h
      exact Or.inl h
    · rintro (h | rfl)
      · exact h
      · exact hin
  · simp

theorem strsetAdd_nodup (l : List String) (x : String) (hl : l.Nodup) :
    (strsetAdd l x).Nodup := by
  unfold strsetAdd
  split
  · exact hl
  · simpa [List.nodup_append] using ⟨hl, by assumption⟩

/-! ### Lemmas about the field-candidate set model -/

theorem fcsValues_mem_iff (s : fieldCandidateSet) (v : String) :
    v ∈ fcsValues s ↔ ∃ e ∈ s, e.value = v := by
  simp [fcsValues]

theorem mem_fcsValues_fcsAdd (s : fieldCandidateSet) (c : fieldCandidate) (v : String) :
    v ∈ fcsValues (fcsAdd s c) ↔ v ∈ fcsValues s ∨ (v = c.value ∧ c.value ≠ "") := by
  unfold fcsAdd
  split
  · rename_i hempty
    simp [hempty]
  · rename_i hne
    split
    · rename_i hdup
      have hvals : fcsValues (List.map (fun e =>
          if e.value = c.value then
            { e with disallowSubSelections := e.disallowSubSelections || c.disallowSubSelections }
          else e) s) = fcsValues s := by
        unfold fcsValues
        rw [List.map_map]
        apply List.map_congr_left
        intro e _
        by_cases h : e.value = c.value <;> simp [h]
      rw [hvals]
      have hcmem : c.value ∈ fcsValues s := by
        rcases List.any_eq_true.mp hdup with ⟨e, he, hev⟩
        exact (fcsValues_mem_iff s c.value).mpr ⟨e, he, of_decide_eq_true hev⟩
      constructor
      · exact fun h => Or.inl h
      · rintro (h | ⟨rfl, _⟩)
        · exact h
        · exact hcmem
    · unfold fcsValues
      simp only [List.map_append, List.map_cons, List.map_nil, List.mem_append,
        List.mem_cons, List.not_mem_nil, or_false]
      constructor
      · rintro (h | h)
        · exact Or.inl h
        · exact Or.inr ⟨h, hne⟩
      · rintro (h | ⟨h, _⟩)
        · exact Or.inl h
        · exact Or.inr h

theorem fcsAdd_flag_true (s : fieldCandidateSet) (c : fieldCandidate)
    (hs : ∀ e ∈ s, e.disallowSubSelections = true) (hc : c.disallowSubSelections = true) :
    ∀ e ∈ fcsAdd s c, e.disallowSubSelections = true := by
  unfold fcsAdd
  split
  · exact hs
  · split
    · intro e he
      rcases List.mem_map.mp he with ⟨e', he', rfl⟩
      by_cases h : e'.value = c.value <;> simp [h, hs e' he', hc]
    · intro e he
      rcases List.mem_append.mp he with h | h
      · exact hs e h
      · rcases List.mem_singleton.mp h with rfl
        exact hc

theorem fcsAdd_value_ne (s : fieldCandidateSet) (c : fieldCandidate)
    (hs : ∀ e ∈ s, e.value ≠ "") :
    ∀ e ∈ fcsAdd s c, e.value ≠ "" := by
  unfold fcsAdd
  split
  · exact hs
  · rename_i hne
    split
    · intro e he
      rcases List.mem_map.mp he with ⟨e', he', rfl⟩
      by_cases h : e'.value = c.value
      · simp [h]
        exact hne
      · simp [h]
        exact hs e' he'
    · intro e he
      rcases List.mem_append.mp he with h | h
      · exact hs e h
      · rcases List.mem_singleton.mp h with rfl
        exact hne

theorem fcsAdd_values_nodup (s : fieldCandidateSet) (c : fieldCandidate)
    (hs : (fcsValues s).Nodup) : (fcsValues (fcsAdd s c)).Nodup := by
  unfold fcsAdd
  split
  · exact hs
  · split
    · rename_i hdup
      have hvals : fcsValues (List.map (fun e =>
          if e.value = c.value then
            { e with disallowSubSelections := e.disallowSubSelections || c.disallowSubSelections }
          else e) s) = fcsValues s := by
        unfold fcsValues
        rw [List.map_map]
        apply List.map_congr_left
        intro e _
        by_cases h : e.value = c.value <;> simp [h]
      rw [hvals]; exact hs
    · rename_i hnodup
      have hnot : c.value ∉ fcsValues s := by
        intro hmem
        rcases (fcsValues_mem_iff s c.value).mp hmem with ⟨e, he, hev⟩
        exact hnodup (List.any_eq_true.mpr ⟨e, he, decide_eq_true hev⟩)
      have hsplit : fcsValues (s ++ [c]) = fcsValues s ++ [c.value] := by
        simp [fcsValues]
      rw [hsplit]
      refine List.Nodup.append hs (List.nodup_singleton _) ?_
      intro a ha hb
      rcases List.mem_singleton.mp hb with rfl
      exact hnot ha

theorem mem_fcsValues_fcsAddAll (s : fieldCandidateSet) (cs : List fieldCandidate) (v : String) :
    v ∈ fcsValues (fcsAddAll s cs) ↔
      v ∈ fcsValues s ∨ ∃ c ∈ cs, v = c.value ∧ c.value ≠ "" := by
  exact foldl_mem_iff (fun s v => v ∈ fcsValues s)
    (fun c v => v = c.value ∧ c.value ≠ "") fcsAdd
    (fun s c v => mem_fcsValues_fcsAdd s c v) cs s v

theorem fcsAddAll_flag_true (s : fieldCandidateSet) (cs : List fieldCandidate)
    (hs : ∀ e ∈ s, e.disallowSubSelections = true)
    (hcs : ∀ c ∈ cs, c.disallowSubSelections = true) :
    ∀ e ∈ fcsAddAll s cs, e.disallowSubSelections = true := by
  induction cs generalizing s with
  | nil => exact hs
  | cons c t ih =>
    exact ih (fcsAdd s c)
      (fcsAdd_flag_true s c hs (hcs c (by simp)))
      (fun c' hc' => hcs c' (by simp [hc']))

theorem fcsAddAll_value_ne (s : fieldCandidateSet) (cs : List fieldCandidate)
    (hs : ∀ e ∈ s, e.value ≠ "") :
    ∀ e ∈ fcsAddAll s cs, e.value ≠ "" := by
  induction cs generalizing s with
  | nil => exact hs
  | cons c t ih => exact ih (fcsAdd s c) (fcsAdd_value_ne s c hs)

theorem fcsAddAll_values_nodup (s : fieldCandidateSet) (cs : List fieldCandidate)
    (hs : (fcsValues s).Nodup) : (fcsValues (fcsAddAll s cs)).Nodup := by
  induction cs generalizing s with
  | nil => exact hs
  | cons c t ih => exact ih (fcsAdd s c) (fcsAdd_values_nodup s c hs)

theorem mem_fcs_of_all_flag (s : fieldCandidateSet)
    (hflag : ∀ e ∈ s, e.disallowSubSelections = true) (c : fieldCandidate) :
    c ∈ s ↔ c.disallowSubSelections = true ∧ c.value ∈ fcsValues s := by
  constructor
  · intro h
    exact ⟨hflag c h, List.mem_map.mpr ⟨c, h, rfl⟩⟩
  · rintro ⟨hf, hv⟩
    rcases (fcsValues_mem_iff s c.value).mp hv with ⟨e, he, hev⟩
    have hef := hflag e he
    cases c with
    | mk cv cf =>
      cases e with
      | mk ev ef =>
        simp only at hev hef
        simp only at hf
        subst hev hef hf
        exact he

/-! ### Basic string facts for the embedding -/

theorem str_eq_empty_iff (s : String) : s = "" ↔ s.toList = [] := by
  cases s with
  | mk data =>
    show String.mk data = String.mk [] ↔ data = []
    constructor
    · intro h
      injection h
    · intro h
      rw [h]

theorem str_length_eq_zero_iff (s : String) : s.length = 0 ↔ s = "" := by
  rw [str_eq_empty_iff]
  show s.data.length = 0 ↔ s.data = []
  exact List.length_eq_zero

theorem str_toList_append (s t : String) : (s ++ t).toList = s.toList ++ t.toList := by
  cases s with
  | mk a =>
    cases t with
    | mk b => rfl

theorem joinDashes_ne_empty : ∀ l : List String, (∃ s ∈ l, s ≠ "") → joinDashes l ≠ "" := by
  intro l
  match l with
  | [] => rintro ⟨s, hs, _⟩; cases hs
  | [s] =>
    rintro ⟨s', hs', hne⟩ h
    rcases List.mem_singleton.mp hs' with rfl
    exact hne h
  | s :: b :: t =>
    intro _ h
    have h2 : s ++ "-" ++ joinDashes (b :: t) = "" := h
    have := (str_eq_empty_iff _).mp h2
    rw [str_toList_append, str_toList_append] at this
    simp at this

theorem dropTrailingEmpty_has_ne (l : List String) (h : dropTrailingEmpty l ≠ []) :
    ∃ s ∈ dropTrailingEmpty l, s ≠ "" := by
  unfold dropTrailingEmpty at *
  have hdw : l.reverse.dropWhile (fun s => s = "") ≠ [] := by
    intro hnil
    exact h (by rw [hnil]; rfl)
  refine ⟨(l.reverse.dropWhile (fun s => s = "")).head hdw, ?_, ?_⟩
  · exact List.mem_reverse.mpr (List.head_mem hdw)
  · have := List.head_dropWhile_not (fun s : String => s = "") l.reverse hdw
    simpa using this

theorem mem_generateSubSelections_ne_empty (token w : String)
    (htok : token ≠ "") (hw : w ∈ generateSubSelections token) : w ≠ "" := by
  unfold generateSubSelections at hw
  rcases List.mem_cons.mp hw with rfl | hw'
  · exact htok
  · rcases List.mem_filterMap.mp hw' with ⟨k, _, hk⟩
    by_cases hemp : (dropTrailingEmpty ((splitOnChar '-' token).take (k + 1))).isEmpty
    · simp [hemp] at hk
    · simp only [hemp, if_neg, Bool.false_eq_true, not_false_eq_true, if_false,
        Option.some.injEq] at hk
      subst hk
      apply joinDashes_ne_empty
      apply dropTrailingEmpty_has_ne
      intro hnil
      rw [hnil] at hemp
      exact hemp rfl

/-! ### Characterization of the product candidate builder -/

theorem productFieldEmit_trim_ne (a : String) (ip : Bool) (i : Nat) (raw : String)
    (h : productFieldEmit a ip i raw = true) : trimStr raw ≠ "" := by
  intro hc
  unfold productFieldEmit at h
  rw [hc] at h
  simp at h

theorem productFieldEmit_iff (a g : String) (i : Nat) (raw : String) :
    productFieldEmit a (strContains a ("plugin") || strContains g ("plugin")) i raw = true ↔
      trimStr raw ≠ "" ∧ lowerStr (trimStr raw) ∉ forbiddenProductGroupIDFields ∧ 2 ≤ i ∧
        (a = "" ∨ ((strStartsWith a (trimStr raw) = true ∨ strEndsWith a (trimStr raw) = true) ∧
          ¬(strContains a ("plugin") = true ∨ strContains g ("plugin") = true))) := by
  unfold productFieldEmit
  simp only []
  split_ifs with h1 h2 h3
  · rw [str_length_eq_zero_iff] at h1
    simp [h1]
  · simp only [Bool.false_eq_true, false_iff]
    rintro ⟨_, hnotin, _⟩
    apply hnotin
    simpa [List.contains] using h2
  · simp only [Bool.false_eq_true, false_iff]
    rintro ⟨_, _, h2le, _⟩
    omega
  · have hne : trimStr raw ≠ "" := by
      intro hc
      exact h1 (by rw [hc]; rfl)
    have hnotin : lowerStr (trimStr raw) ∉ forbiddenProductGroupIDFields := by
      intro hc
      exact h2 (by simpa [List.contains] using hc)
    have h2le : 2 ≤ i := by omega
    simp only [Bool.or_eq_true, Bool.and_eq_true, Bool.not_eq_true', decide_eq_true_eq,
      Bool.or_eq_false_iff]
    constructor
    · rintro (ha | ⟨hstart, ⟨hca, hcg⟩⟩)
      · exact ⟨hne, hnotin, h2le, Or.inl ha⟩
      · exact ⟨hne, hnotin, h2le, Or.inr ⟨hstart, by simp [hca, hcg]⟩⟩
    · rintro ⟨_, _, _, (ha | ⟨hstart, hnp⟩)⟩
      · exact Or.inl ha
      · refine Or.inr ⟨hstart, ?_, ?_⟩
        · cases hca : strContains a ("plugin")
          · rfl
          · exact absurd (Or.inl hca) hnp
        · cases hcg : strContains g ("plugin")
          · rfl
          · exact absurd (Or.inr hcg) hnp

theorem mem_addProductFields (a : String) (s : List String) (g x : String) :
    x ∈ addProductFields a s g ↔
      x ∈ s ∨ ∃ p ∈ enumFromN 0 (splitOnChar '.' g),
        productFieldEmit a (strContains a ("plugin") || strContains g ("plugin")) p.1 p.2 = true ∧
          x = trimStr p.2 := by
  unfold addProductFields
  refine foldl_mem_iff (fun s x => x ∈ s)
    (fun (p : Nat × String) x =>
      productFieldEmit a (strContains a ("plugin") || strContains g ("plugin")) p.1 p.2 = true ∧
        x = trimStr p.2) _ ?_ _ s x
  intro s' p x'
  by_cases he : productFieldEmit a (strContains a ("plugin") || strContains g ("plugin")) p.1 p.2 = true
  · simp [he, mem_strsetAdd]
  · simp [he]

theorem mem_productsFromArtifactAndGroupIDs (a : String) (gs : List String) (x : String) :
    x ∈ productsFromArtifactAndGroupIDs a gs ↔
      (a ≠ "" ∧ x = a) ∨
        ∃ g ∈ gs, ∃ i raw, (splitOnChar '.' g)[i]? = some raw ∧
          productFieldEmit a (strContains a ("plugin") || strContains g ("plugin")) i raw = true ∧
            x = trimStr raw := by
  unfold productsFromArtifactAndGroupIDs
  simp only []
  have base : ∀ y, y ∈ (if a ≠ "" then strsetAdd [] a else []) ↔ (a ≠ "" ∧ y = a) := by
    intro y
    by_cases ha : a = "" <;> simp [ha, strsetAdd]
  rw [foldl_mem_iff (fun s x => x ∈ s)
    (fun g x => ∃ p ∈ enumFromN 0 (splitOnChar '.' g),
      productFieldEmit a (strContains a ("plugin") || strContains g ("plugin"))
        (Prod.fst p) (Prod.snd p) = true ∧ x = trimStr (Prod.snd p))
    (addProductFields a) (fun s g x => mem_addProductFields a s g x) gs _ x, base]
  constructor
  · rintro (h | ⟨g, hg, hp⟩)
    · exact Or.inl h
    · exact Or.inr ⟨g, hg, (exists_mem_enumFromN (splitOnChar '.' g) _).mp hp⟩
  · rintro (h | ⟨g, hg, hp⟩)
    · exact Or.inl h
    · exact Or.inr ⟨g, hg, (exists_mem_enumFromN (splitOnChar '.' g) _).mpr hp⟩

theorem productsFromArtifactAndGroupIDs_nodup (a : String) (gs : List String) :
    (productsFromArtifactAndGroupIDs a gs).Nodup := by
  unfold productsFromArtifactAndGroupIDs
  simp only []
  apply foldl_inv (fun l : List String => l.Nodup)
  · intro s g hs
    unfold addProductFields
    apply foldl_inv (fun l : List String => l.Nodup)
    · intro s' p hs'
      by_cases he : productFieldEmit a
          (strContains a ("plugin") || strContains g ("plugin")) p.1 p.2 = true
      · simpa [he] using strsetAdd_nodup s' (trimStr p.2) hs'
      · simpa [he] using hs'
    · exact hs
  · by_cases ha : a = "" <;> simp [ha, strsetAdd]

/-! ### Characterization of the vendor candidate builder (group-ID path) -/

theorem vendorFieldEmit_iff (i : Nat) (raw : String) :
    vendorFieldEmit i raw = true ↔
      trimStr raw ≠ "" ∧ lowerStr (trimStr raw) ∉ forbiddenVendorGroupIDFields ∧ i ≠ 0 := by
  unfold vendorFieldEmit
  simp only []
  split_ifs with h1 h2 h3
  · rw [str_length_eq_zero_iff] at h1
    simp [h1]
  · simp only [Bool.false_eq_true, false_iff]
    rintro ⟨_, hnotin, _⟩
    apply hnotin
    simpa [List.contains] using h2
  · simp [h3]
  · have hne : trimStr raw ≠ "" := by
      intro hc
      exact h1 (by rw [hc]; rfl)
    have hnotin : lowerStr (trimStr raw) ∉ forbiddenVendorGroupIDFields := by
      intro hc
      exact h2 (by simpa [List.contains] using hc)
    simp [hne, hnotin, h3]

theorem vendorFieldEmit_trim_ne (i : Nat) (raw : String)
    (h : vendorFieldEmit i raw = true) : trimStr raw ≠ "" := by
  intro hc
  unfold vendorFieldEmit at h
  rw [hc] at h
  simp at h

theorem mem_vendorGroupStep (acc : fieldCandidateSet) (p : Nat × String) (v : String) :
    v ∈ fcsValues (if vendorFieldEmit p.1 p.2 then
        fcsAddAll acc
          ((generateSubSelections (trimStr p.2)).map fun value =>
            { value := value, disallowSubSelections := true })
      else acc) ↔
      v ∈ fcsValues acc ∨
        (vendorFieldEmit p.1 p.2 = true ∧ v ∈ generateSubSelections (trimStr p.2)) := by
  by_cases he : vendorFieldEmit p.1 p.2 = true
  · rw [if_pos he, mem_fcsValues_fcsAddAll]
    have htne := vendorFieldEmit_trim_ne p.1 p.2 he
    constructor
    · rintro (h | ⟨c, hc, rfl, hcne⟩)
      · exact Or.inl h
      · rcases List.mem_map.mp hc with ⟨w, hw, rfl⟩
        exact Or.inr ⟨he, hw⟩
    · rintro (h | ⟨_, hw⟩)
      · exact Or.inl h
      · refine Or.inr ⟨⟨v, true⟩, List.mem_map.mpr ⟨v, hw, rfl⟩, rfl, ?_⟩
        exact mem_generateSubSelections_ne_empty (trimStr p.2) v htne hw
  · simp [he]

theorem mem_fcsValues_vendorsFromGroupIDs (gs : List String) (v : String) :
    v ∈ fcsValues (vendorsFromGroupIDs gs) ↔
      ∃ g ∈ gs, ∃ i raw, (splitOnChar '.' g)[i]? = some raw ∧
        vendorFieldEmit i raw = true ∧ v ∈ generateSubSelections (trimStr raw) := by
  unfold vendorsFromGroupIDs
  have hstep : ∀ (s : fieldCandidateSet) (g : String) (x : String),
      x ∈ fcsValues ((enumFromN 0 (splitOnChar '.' g)).foldl
        (fun acc p =>
          if vendorFieldEmit p.1 p.2 then
            fcsAddAll acc
              ((generateSubSelections (trimStr p.2)).map fun value =>
                { value := value, disallowSubSelections := true })
          else acc) s) ↔
      x ∈ fcsValues s ∨ ∃ p ∈ enumFromN 0 (splitOnChar '.' g),
        vendorFieldEmit (Prod.fst p) (Prod.snd p) = true ∧
          x ∈ generateSubSelections (trimStr (Prod.snd p)) := by
    intro s g x
    exact foldl_mem_iff (fun s x => x ∈ fcsValues s)
      (fun (p : Nat × String) x =>
        vendorFieldEmit p.1 p.2 = true ∧ x ∈ generateSubSelections (trimStr p.2)) _
      (fun s p x => mem_vendorGroupStep s p x) _ s x
  rw [foldl_mem_iff (fun s x => x ∈ fcsValues s)
    (fun g x => ∃ p ∈ enumFromN 0 (splitOnChar '.' g),
      vendorFieldEmit (Prod.fst p) (Prod.snd p) = true ∧
        x ∈ generateSubSelections (trimStr (Prod.snd p)))
    _ hstep gs newCPRFieldCandidateSet v]
  simp only [newCPRFieldCandidateSet, fcsValues, List.map_nil, List.not_mem_nil, false_or]
  constructor
  · rintro ⟨g, hg, hp⟩
    exact ⟨g, hg, (exists_mem_enumFromN (splitOnChar '.' g) _).mp hp⟩
  · rintro ⟨g, hg, hp⟩
    exact ⟨g, hg, (exists_mem_enumFromN (splitOnChar '.' g) _).mpr hp⟩

theorem vendorsFromGroupIDs_flag (gs : List String) :
    ∀ e ∈ vendorsFromGroupIDs gs, e.disallowSubSelections = true := by
  unfold vendorsFromGroupIDs
  apply foldl_inv (fun s : fieldCandidateSet => ∀ e ∈ s, e.disallowSubSelections = true)
  · intro s g hs
    apply foldl_inv (fun s : fieldCandidateSet => ∀ e ∈ s, e.disallowSubSelections = true)
    · intro s' p hs'
      by_cases he : vendorFieldEmit p.1 p.2 = true
      · rw [if_pos he]
        apply fcsAddAll_flag_true _ _ hs'
        intro c hc
        rcases List.mem_map.mp hc with ⟨w, _, rfl⟩
        rfl
      · rw [if_neg he]
        exact hs'
    · exact hs
  · intro e he
    cases he

theorem mem_vendorsFromGroupIDs (gs : List String) (c : fieldCandidate) :
    c ∈ vendorsFromGroupIDs gs ↔
      c.disallowSubSelections = true ∧
        ∃ g ∈ gs, ∃ i raw, (splitOnChar '.' g)[i]? = some raw ∧
          vendorFieldEmit i raw = true ∧ c.value ∈ generateSubSelections (trimStr raw) := by
  rw [mem_fcs_of_all_flag _ (vendorsFromGroupIDs_flag gs) c,
    mem_fcsValues_vendorsFromGroupIDs]

/-! ### Characterization of the manifest paths -/

/-- A value occurs for a field name in a manifest: either in the primary
mapping or in one of the named sections. -/
def manifestValueAt (manifest : JavaManifest) (name value : String) : Prop :=
  lookupField manifest.Main name = some value ∨
    ∃ sec ∈ manifest.NamedSections, lookupField sec name = some value

theorem mem_addManifestNameVendor (s : fieldCandidateSet) (o : Option String) (v : String) :
    v ∈ fcsValues (addManifestNameVendor s o) ↔
      v ∈ fcsValues s ∨ ∃ value, o = some value ∧ startsWithDomain value = false ∧
        v = normalizeName value ∧ normalizeName value ≠ "" := by
  cases o with
  | none => simp [addManifestNameVendor]
  | some value =>
    simp only [addManifestNameVendor]
    by_cases hd : startsWithDomain value
    · rw [if_neg (by simp [hd])]
      simp [hd]
    · rw [if_pos (by simp [hd])]
      rw [mem_fcsValues_fcsAdd]
      simp only [Option.some.injEq]
      constructor
      · rintro (h | ⟨rfl, hne⟩)
        · exact Or.inl h
        · exact Or.inr ⟨value, rfl, by simp [hd], rfl, hne⟩
      · rintro (h | ⟨value', rfl, _, rfl, hne⟩)
        · exact Or.inl h
        · exact Or.inr ⟨rfl, hne⟩

theorem addManifestNameVendor_flag (s : fieldCandidateSet) (o : Option String)
    (hs : ∀ e ∈ s, e.disallowSubSelections = true) :
    ∀ e ∈ addManifestNameVendor s o, e.disallowSubSelections = true := by
  cases o with
  | none => exact hs
  | some value =>
    simp only [addManifestNameVendor]
    split
    · exact fcsAdd_flag_true s { value := normalizeName value, disallowSubSelections := true } hs rfl
    · exact hs

theorem mem_manifestNameStep (mf : JavaManifest) (s : fieldCandidateSet)
    (name : String) (v : String) :
    v ∈ fcsValues (mf.NamedSections.foldl
        (fun acc sec => addManifestNameVendor acc (lookupField sec name))
        (addManifestNameVendor s (lookupField mf.Main name))) ↔
      v ∈ fcsValues s ∨ ∃ value, manifestValueAt mf name value ∧
        startsWithDomain value = false ∧ v = normalizeName value ∧ normalizeName value ≠ "" := by
  rw [foldl_mem_iff (fun s x => x ∈ fcsValues s)
    (fun (sec : ManifestMap) x => ∃ value, lookupField sec name = some value ∧
      startsWithDomain value = false ∧ x = normalizeName value ∧ normalizeName value ≠ "")
    _ (fun s' sec x => mem_addManifestNameVendor s' (lookupField sec name) x)
    mf.NamedSections _ v, mem_addManifestNameVendor]
  unfold manifestValueAt
  constructor
  · rintro ((h | ⟨value, hv, hrest⟩) | ⟨sec, hsec, value, hv, hrest⟩)
    · exact Or.inl h
    · exact Or.inr ⟨value, Or.inl hv, hrest⟩
    · exact Or.inr ⟨value, Or.inr ⟨sec, hsec, hv⟩, hrest⟩
  · rintro (h | ⟨value, (hv | ⟨sec, hsec, hv⟩), hrest⟩)
    · exact Or.inl (Or.inl h)
    · exact Or.inl (Or.inr ⟨value, hv, hrest⟩)
    · exact Or.inr ⟨sec, hsec, value, hv, hrest⟩

theorem vendorsFromJavaManifestNames_eq (mf : JavaManifest) (pom : Option PomProperties) :
    vendorsFromJavaManifestNames ⟨.java ⟨some mf, pom⟩⟩ =
      javaManifestNameFields.foldl
        (fun vendors name =>
          mf.NamedSections.foldl
            (fun acc sec => addManifestNameVendor acc (lookupField sec name))
            (addManifestNameVendor vendors (lookupField mf.Main name)))
        newCPRFieldCandidateSet := rfl

theorem mem_fcsValues_vendorsFromJavaManifestNames (mf : JavaManifest)
    (pom : Option PomProperties) (v : String) :
    v ∈ fcsValues (vendorsFromJavaManifestNames ⟨.java ⟨some mf, pom⟩⟩) ↔
      ∃ name ∈ javaManifestNameFields, ∃ value, manifestValueAt mf name value ∧
        startsWithDomain value = false ∧ v = normalizeName value ∧ normalizeName value ≠ "" := by
  rw [vendorsFromJavaManifestNames_eq mf pom]
  rw [foldl_mem_iff (fun s x => x ∈ fcsValues s)
    (fun (name : String) x => ∃ value, manifestValueAt mf name value ∧
      startsWithDomain value = false ∧ x = normalizeName value ∧ normalizeName value ≠ "")
    _ (fun s name x => mem_manifestNameStep mf s name x) javaManifestNameFields _ v]
  simp [newCPRFieldCandidateSet, fcsValues]

theorem vendorsFromJavaManifestNames_flag (p : Package) :
    ∀ e ∈ vendorsFromJavaManifestNames p, e.disallowSubSelections = true := by
  unfold vendorsFromJavaManifestNames
  match p with
  | ⟨.java metadata⟩ =>
    match metadata with
    | ⟨none, _⟩ => intro e he; cases he
    | ⟨some mf, _⟩ =>
      apply foldl_inv (fun s : fieldCandidateSet => ∀ e ∈ s, e.disallowSubSelections = true)
      · intro s name hs
        apply foldl_inv (fun s : fieldCandidateSet => ∀ e ∈ s, e.disallowSubSelections = true)
        · intro s' sec hs'
          exact addManifestNameVendor_flag s' _ hs'
        · exact addManifestNameVendor_flag s _ hs
      · intro e he
        cases he
  | ⟨.rpmdb _⟩ => intro e he; cases he
  | ⟨.absent⟩ => intro e he; cases he
  | ⟨.mismatched⟩ => intro e he; cases he

theorem mem_vendorsFromJavaManifestNames (mf : JavaManifest)
    (pom : Option PomProperties) (c : fieldCandidate) :
    c ∈ vendorsFromJavaManifestNames ⟨.java ⟨some mf, pom⟩⟩ ↔
      c.disallowSubSelections = true ∧
        ∃ name ∈ javaManifestNameFields, ∃ value, manifestValueAt mf name value ∧
          startsWithDomain value = false ∧ c.value = normalizeName value ∧
            normalizeName value ≠ "" := by
  rw [mem_fcs_of_all_flag _ (vendorsFromJavaManifestNames_flag _) c,
    mem_fcsValues_vendorsFromJavaManifestNames]

theorem mem_appendIfDomain (l : List String) (o : Option String) (x : String) :
    x ∈ appendIfDomain l o ↔
      x ∈ l ∨ ∃ value, o = some value ∧ startsWithDomain value = true ∧ x = value := by
  cases o with
  | none => simp [appendIfDomain]
  | some value =>
    simp only [appendIfDomain]
    by_cases hd : startsWithDomain value
    · rw [if_pos hd]
      simp only [List.mem_append, List.mem_singleton, Option.some.injEq]
      constructor
      · rintro (h | hx)
        · exact Or.inl h
        · exact Or.inr ⟨value, rfl, hd, hx⟩
      · rintro (h | ⟨value', rfl, _, rfl⟩)
        · exact Or.inl h
        · simp
    · rw [if_neg hd]
      simp only [Option.some.injEq]
      constructor
      · exact fun h => Or.inl h
      · rintro (h | ⟨value', rfl, hd', rfl⟩)
        · exact h
        · exact absurd hd' hd

theorem groupIDsFromJavaManifest_eq (mf : JavaManifest) :
    groupIDsFromJavaManifest (some mf) =
      javaManifestGroupIDFields.foldl
        (fun groupIDs name =>
          mf.NamedSections.foldl
            (fun acc sec => appendIfDomain acc (lookupField sec name))
            (appendIfDomain groupIDs (lookupField mf.Main name)))
        [] := rfl

theorem mem_groupIDsFromJavaManifest (mf : JavaManifest) (x : String) :
    x ∈ groupIDsFromJavaManifest (some mf) ↔
      ∃ name ∈ javaManifestGroupIDFields, ∃ value, manifestValueAt mf name value ∧
        startsWithDomain value = true ∧ x = value := by
  rw [groupIDsFromJavaManifest_eq mf]
  have hstep : ∀ (s : List String) (name : String) (y : String),
      y ∈ mf.NamedSections.foldl
        (fun acc sec => appendIfDomain acc (lookupField sec name))
        (appendIfDomain s (lookupField mf.Main name)) ↔
      y ∈ s ∨ ∃ value, manifestValueAt mf name value ∧
        startsWithDomain value = true ∧ y = value := by
    intro s name y
    rw [foldl_mem_iff (fun l x => x ∈ l)
      (fun (sec : ManifestMap) x => ∃ value, lookupField sec name = some value ∧
        startsWithDomain value = true ∧ x = value)
      _ (fun l sec x => mem_appendIfDomain l (lookupField sec name) x)
      mf.NamedSections _ y, mem_appendIfDomain]
    unfold manifestValueAt
    constructor
    · rintro ((h | ⟨value, hv, hrest⟩) | ⟨sec, hsec, value, hv, hrest⟩)
      · exact Or.inl h
      · exact Or.inr ⟨value, Or.inl hv, hrest⟩
      · exact Or.inr ⟨value, Or.inr ⟨sec, hsec, hv⟩, hrest⟩
    · rintro (h | ⟨value, (hv | ⟨sec, hsec, hv⟩), hrest⟩)
      · exact Or.inl (Or.inl h)
      · exact Or.inl (Or.inr ⟨value, hv, hrest⟩)
      · exact Or.inr ⟨sec, hsec, value, hv, hrest⟩
  rw [foldl_mem_iff (fun l x => x ∈ l)
    (fun (name : String) x => ∃ value, manifestValueAt mf name value ∧
      startsWithDomain value = true ∧ x = value)
    _ hstep javaManifestGroupIDFields _ x]
  simp

/-! ### Splitting and trimming facts needed for the misplaced-group-ID path -/

theorem splitChars_ne_nil (c : Char) : ∀ l : List Char, splitChars c l ≠ [] := by
  intro l
  induction l with
  | nil => simp [splitChars]
  | cons a as ih =>
    simp only [splitChars]
    by_cases hac : a = c
    · simp [hac]
    · rcases hr : splitChars c as with _ | ⟨h, t⟩
      · exact absurd hr ih
      · simp [hac, hr]

theorem splitChars_length (c : Char) : ∀ l : List Char, (splitChars c l).length = l.count c + 1 := by
  intro l
  induction l with
  | nil => simp [splitChars]
  | cons a as ih =>
    simp only [splitChars]
    by_cases hac : a = c
    · rw [if_pos hac]
      subst hac
      show (splitChars a as).length + 1 = List.count a (a :: as) + 1
      rw [ih, List.count_cons]
      simp
    · rw [if_neg hac]
      rcases hr : splitChars c as with _ | ⟨h, t⟩
      · exact absurd hr (splitChars_ne_nil c as)
      · rw [hr] at ih
        show ((a :: h) :: t).length = List.count c (a :: as) + 1
        rw [List.count_cons]
        have hbeq : (a == c) = false := by simp [hac]
        rw [hbeq]
        simp only [Bool.false_eq_true, if_false, List.length_cons] at ih ⊢
        omega

theorem splitOnChar_length (c : Char) (s : String) :
    (splitOnChar c s).length = s.toList.count c + 1 := by
  simp [splitOnChar, splitChars_length]

theorem startsWithDomain_trim (a : String) (h : startsWithDomain a = true)
    (hdot : 1 < (splitOnChar '.' a).length) :
    startsWithDomain (trimStr a) = true ∧ 1 < (splitOnChar '.' (trimStr a)).length := by
  rcases List.any_eq_true.mp h with ⟨d, hd, hdb⟩
  have hdfacts : (∃ c0 dl', d.toList = c0 :: dl' ∧ isWS c0 = false) ∧
      (∀ ch ∈ d.toList, isWS ch = false) ∧ '.' ∉ d.toList := by
    simp only [domains, List.mem_cons, List.not_mem_nil, or_false] at hd
    rcases hd with rfl | rfl | rfl | rfl
    · exact ⟨⟨'c', ['o', 'm'], rfl, rfl⟩, by decide, by decide⟩
    · exact ⟨⟨'o', ['r', 'g'], rfl, rfl⟩, by decide, by decide⟩
    · exact ⟨⟨'n', ['e', 't'], rfl, rfl⟩, by decide, by decide⟩
    · exact ⟨⟨'i', ['o'], rfl, rfl⟩, by decide, by decide⟩
  unfold domainBoundaryAt at hdb
  rw [Bool.and_eq_true] at hdb
  obtain ⟨hpre, hbnd⟩ := hdb
  rw [List.isPrefixOf_iff_prefix] at hpre
  obtain ⟨rest, hrest⟩ := hpre
  have hdrop : a.toList.drop d.toList.length = rest := by
    rw [← hrest]
    exact List.drop_left _ _
  rw [hdrop] at hbnd
  have hcount : 0 < a.toList.count '.' := by
    have := splitOnChar_length '.' a
    omega
  have hdotmem : '.' ∈ rest := by
    have hmem : '.' ∈ a.toList := List.count_pos_iff.mp hcount
    rw [← hrest] at hmem
    rcases List.mem_append.mp hmem with h' | h'
    · exact absurd h' hdfacts.2.2
    · exact h'
  have hX'ne : rest.reverse.dropWhile isWS ≠ [] := by
    intro hnil
    have hmem : '.' ∈ rest.reverse := List.mem_reverse.mpr hdotmem
    rw [← List.takeWhile_append_dropWhile (p := isWS) (l := rest.reverse)] at hmem
    rcases List.mem_append.mp hmem with h' | h'
    · have := List.mem_takeWhile_imp h'
      simp [isWS] at this
    · rw [hnil] at h'
      cases h'
  obtain ⟨c0, dl', hdl, hc0⟩ := hdfacts.1
  have htrim : (trimStr a).toList = d.toList ++ (rest.reverse.dropWhile isWS).reverse := by
    show trimChars a.toList = _
    unfold trimChars
    rw [← hrest, hdl, List.cons_append, List.dropWhile_cons, hc0]
    simp only [Bool.false_eq_true, if_false]
    rw [show (c0 :: (dl' ++ rest)) = (c0 :: dl') ++ rest from rfl, List.reverse_append,
      List.dropWhile_append]
    have hne : (rest.reverse.dropWhile isWS).isEmpty = false := by
      rcases he : rest.reverse.dropWhile isWS with _ | ⟨x, xs⟩
      · exact absurd he hX'ne
      · rfl
    rw [hne]
    simp [List.reverse_append]
  have hXpre : (rest.reverse.dropWhile isWS).reverse <+: rest := by
    have hsuf : rest.reverse.dropWhile isWS <:+ rest.reverse := List.dropWhile_suffix isWS
    have := List.reverse_prefix.mpr hsuf
    simpa using this
  have hXne : (rest.reverse.dropWhile isWS).reverse ≠ [] := by
    intro hnil
    exact hX'ne (by simpa using hnil)
  have hpre2 : List.isPrefixOf d.toList (trimStr a).toList = true := by
    rw [List.isPrefixOf_iff_prefix, htrim]
    exact List.prefix_append _ _
  have hdrop2 : (trimStr a).toList.drop d.toList.length =
      (rest.reverse.dropWhile isWS).reverse := by
    rw [htrim]
    exact List.drop_left _ _
  have hbnd2 : (match (trimStr a).toList.drop d.toList.length with
      | [] => true
      | c :: _ => !c.isAlphanum) = true := by
    rw [hdrop2]
    obtain ⟨cX, Xt, hXcons⟩ := List.exists_cons_of_ne_nil hXne
    obtain ⟨t, ht⟩ := hXpre
    rw [hXcons]
    rw [← ht, hXcons] at hbnd
    simpa using hbnd
  have hdotX : '.' ∈ (rest.reverse.dropWhile isWS).reverse := by
    have hX'mem : '.' ∈ rest.reverse.dropWhile isWS := by
      have hmem : '.' ∈ rest.reverse := List.mem_reverse.mpr hdotmem
      rw [← List.takeWhile_append_dropWhile (p := isWS) (l := rest.reverse)] at hmem
      rcases List.mem_append.mp hmem with h' | h'
      · have := List.mem_takeWhile_imp h'
        simp [isWS] at this
      · exact h'
    exact List.mem_reverse.mpr hX'mem
  have hcount2 : 0 < (trimStr a).toList.count '.' := by
    apply List.count_pos_iff.mpr
    rw [htrim]
    exact List.mem_append.mpr (Or.inr hdotX)
  constructor
  · apply List.any_eq_true.mpr
    refine ⟨d, hd, ?_⟩
    unfold domainBoundaryAt
    rw [Bool.and_eq_true]
    exact ⟨by rw [List.isPrefixOf_iff_prefix] at hpre2 ⊢; exact hpre2, hbnd2⟩
  · have := splitOnChar_length '.' (trimStr a)
    omega

/-! ### Non-emptiness and deduplication invariants of the exported builders -/

theorem candidateVendorsForJava_value_ne (p : Package) :
    ∀ e ∈ candidateVendorsForJava p, e.value ≠ "" := by
  unfold candidateVendorsForJava newCPRFieldCandidateFromSets
  apply foldl_inv (fun s : fieldCandidateSet => ∀ e ∈ s, e.value ≠ "") fcsAddAll
    (fun s cs hs => fcsAddAll_value_ne s cs hs)
  intro e he
  cases he

theorem candidateVendorsForJava_values_nodup (p : Package) :
    (fcsValues (candidateVendorsForJava p)).Nodup := by
  unfold candidateVendorsForJava newCPRFieldCandidateFromSets
  apply foldl_inv (fun s : fieldCandidateSet => (fcsValues s).Nodup) fcsAddAll
    (fun s cs hs => fcsAddAll_values_nodup s cs hs)
  simp [newCPRFieldCandidateSet, fcsValues]

theorem candidateVendorsForRPM_value_ne (p : Package) :
    ∀ e ∈ candidateVendorsForRPM p, e.value ≠ "" := by
  match p with
  | ⟨.rpmdb md⟩ =>
    show ∀ e ∈ (if md.Vendor ≠ "" then
        fcsAdd newCPRFieldCandidateSet
          { value := normalizeTitle md.Vendor, disallowSubSelections := true }
      else newCPRFieldCandidateSet), e.value ≠ ""
    by_cases hv : md.Vendor ≠ ""
    · rw [if_pos hv]
      exact fcsAdd_value_ne newCPRFieldCandidateSet _ (fun e he => absurd he (List.not_mem_nil e))
    · rw [if_neg hv]
      intro e he
      cases he
  | ⟨.java _⟩ => intro e he; cases he
  | ⟨.absent⟩ => intro e he; cases he
  | ⟨.mismatched⟩ => intro e he; cases he

theorem candidateVendorsForRPM_values_nodup (p : Package) :
    (fcsValues (candidateVendorsForRPM p)).Nodup := by
  match p with
  | ⟨.rpmdb md⟩ =>
    show (fcsValues (if md.Vendor ≠ "" then
        fcsAdd newCPRFieldCandidateSet
          { value := normalizeTitle md.Vendor, disallowSubSelections := true }
      else newCPRFieldCandidateSet)).Nodup
    by_cases hv : md.Vendor ≠ ""
    · rw [if_pos hv]
      exact fcsAdd_values_nodup newCPRFieldCandidateSet _
        (by simp [newCPRFieldCandidateSet, fcsValues])
    · rw [if_neg hv]
      simp [newCPRFieldCandidateSet, fcsValues]
  | ⟨.java _⟩ => simp [candidateVendorsForRPM, newCPRFieldCandidateSet, fcsValues]
  | ⟨.absent⟩ => simp [candidateVendorsForRPM, newCPRFieldCandidateSet, fcsValues]
  | ⟨.mismatched⟩ => simp [candidateVendorsForRPM, newCPRFieldCandidateSet, fcsValues]

theorem products_no_empty (a : String) (gs : List String) :
    "" ∉ productsFromArtifactAndGroupIDs a gs := by
  intro hmem
  rcases (mem_productsFromArtifactAndGroupIDs a gs ("")).mp hmem with
    ⟨hne, ha⟩ | ⟨g, _, i, raw, _, hemit, heq⟩
  · exact hne ha.symm
  · exact productFieldEmit_trim_ne _ _ _ _ hemit heq.symm

/-! ### The claims -/

/-- C1: for every string s, `startsWithDomain s` is true iff s, case-sensitively,
begins with one of the literal words com, org, net, io immediately followed by a
non-alphanumeric boundary (end of string included), and in particular it accepts
"org.apache.commons" and rejects "organization".  The classifier is the
spec-modelled one, since `internal.HasAnyOfPrefixes` is not in the provided
source. -/
theorem claim_C1 :
    (∀ s : String, startsWithDomain s = true ↔
      ∃ d ∈ domains, ∃ rest : List Char, s.toList = d.toList ++ rest ∧
        (rest = [] ∨ ∃ c t, rest = c :: t ∧ c.isAlphanum = false)) ∧
    startsWithDomain ("org.apache.commons") = true ∧
    startsWithDomain ("organization") = false := by
  refine ⟨?_, by decide, by decide⟩
  intro s
  unfold startsWithDomain
  rw [List.any_eq_true]
  constructor
  · rintro ⟨d, hd, hdb⟩
    unfold domainBoundaryAt at hdb
    rw [Bool.and_eq_true] at hdb
    obtain ⟨hpre, hbnd⟩ := hdb
    rw [List.isPrefixOf_iff_prefix] at hpre
    obtain ⟨rest, hrest⟩ := hpre
    have hdrop : s.toList.drop d.toList.length = rest := by
      rw [← hrest]
      exact List.drop_left _ _
    rw [hdrop] at hbnd
    refine ⟨d, hd, rest, hrest.symm, ?_⟩
    rcases rest with _ | ⟨c, t⟩
    · exact Or.inl rfl
    · refine Or.inr ⟨c, t, rfl, ?_⟩
      simpa using hbnd
  · rintro ⟨d, hd, rest, hrest, hbnd⟩
    refine ⟨d, hd, ?_⟩
    unfold domainBoundaryAt
    rw [Bool.and_eq_true]
    have hdrop : s.toList.drop d.toList.length = rest := by
      rw [hrest]
      exact List.drop_left _ _
    constructor
    · rw [List.isPrefixOf_iff_prefix, hrest]
      exact List.prefix_append _ _
    · rw [hdrop]
      rcases hbnd with rfl | ⟨c, t, rfl, hc⟩
      · rfl
      · simpa using hc

/-- C2: a dot-delimited segment of a group ID is emitted as a product candidate
iff it is non-empty after trimming, its lowercase form is not a forbidden
product field, its index is at least 2, and the artifact ID is empty or
(starts-with or ends-with the segment while neither string contains the
substring plugin); the artifact ID itself (when non-empty) is the only other
candidate.  In particular group ID org.jenkins-ci.plugins with artifact ID git
yields git and never plugins. -/
theorem claim_C2 :
    (∀ (a : String) (gs : List String) (x : String),
      x ∈ productsFromArtifactAndGroupIDs a gs ↔
        (a ≠ "" ∧ x = a) ∨
          ∃ g ∈ gs, ∃ i raw, (splitOnChar '.' g)[i]? = some raw ∧
            trimStr raw ≠ "" ∧
            lowerStr (trimStr raw) ∉ forbiddenProductGroupIDFields ∧
            2 ≤ i ∧
            (a = "" ∨
              ((strStartsWith a (trimStr raw) = true ∨ strEndsWith a (trimStr raw) = true) ∧
                ¬(strContains a ("plugin") = true ∨ strContains g ("plugin") = true))) ∧
            x = trimStr raw) ∧
    "git" ∈ productsFromArtifactAndGroupIDs ("git") [("org.jenkins-ci.plugins")] ∧
    "plugins" ∉ productsFromArtifactAndGroupIDs ("git") [("org.jenkins-ci.plugins")] := by
  refine ⟨?_, by decide, by decide⟩
  intro a gs x
  rw [mem_productsFromArtifactAndGroupIDs]
  constructor
  · rintro (h | ⟨g, hg, i, raw, hget, hemit, hx⟩)
    · exact Or.inl h
    · obtain ⟨h1, h2, h3, h4⟩ := (productFieldEmit_iff a g i raw).mp hemit
      exact Or.inr ⟨g, hg, i, raw, hget, h1, h2, h3, h4, hx⟩
  · rintro (h | ⟨g, hg, i, raw, hget, h1, h2, h3, h4, hx⟩)
    · exact Or.inl h
    · exact Or.inr ⟨g, hg, i, raw, hget,
        (productFieldEmit_iff a g i raw).mpr ⟨h1, h2, h3, h4⟩, hx⟩

/-- C3: the vendor candidates built from group IDs are exactly the sub-selection
expansions of the dot-delimited segments that are non-empty after trimming, not
at index 0, and not forbidden vendor fields, each carried with
disallowSubSelections = true; in particular group ID org.jenkins-ci.plugins
yields jenkins-ci and jenkins but never org nor plugins. -/
theorem claim_C3 :
    (∀ (gs : List String) (c : fieldCandidate),
      c ∈ vendorsFromGroupIDs gs ↔
        c.disallowSubSelections = true ∧
          ∃ g ∈ gs, ∃ i raw, (splitOnChar '.' g)[i]? = some raw ∧
            trimStr raw ≠ "" ∧
            lowerStr (trimStr raw) ∉ forbiddenVendorGroupIDFields ∧
            i ≠ 0 ∧
            c.value ∈ generateSubSelections (trimStr raw)) ∧
    "jenkins-ci" ∈ fcsValues (vendorsFromGroupIDs [("org.jenkins-ci.plugins")]) ∧
    "jenkins" ∈ fcsValues (vendorsFromGroupIDs [("org.jenkins-ci.plugins")]) ∧
    "org" ∉ fcsValues (vendorsFromGroupIDs [("org.jenkins-ci.plugins")]) ∧
    "plugins" ∉ fcsValues (vendorsFromGroupIDs [("org.jenkins-ci.plugins")]) := by
  refine ⟨?_, by decide, by decide, by decide, by decide⟩
  intro gs c
  rw [mem_vendorsFromGroupIDs]
  constructor
  · rintro ⟨hflag, g, hg, i, raw, hget, hemit, hmem⟩
    obtain ⟨h1, h2, h3⟩ := (vendorFieldEmit_iff i raw).mp hemit
    exact ⟨hflag, g, hg, i, raw, hget, h1, h2, h3, hmem⟩
  · rintro ⟨hflag, g, hg, i, raw, hget, h1, h2, h3, hmem⟩
    exact ⟨hflag, g, hg, i, raw, hget, (vendorFieldEmit_iff i raw).mpr ⟨h1, h2, h3⟩, hmem⟩

/-- C4 counterexample: under the spec-modelled boundary classifier, the
artifact ID commons.io does NOT pass (`m` follows the word com), so the
claimed example fails: artifact-ID extraction returns commons.io, not the
empty string, and no group ID is emitted.  Moreover even for a value whose
TRIMMED form passes the classifier (here with a leading space), the group-ID
emission does not happen, because the source tests the untrimmed value. -/
theorem claim_C4_counterexample :
    startsWithDomain ("commons.io") = false ∧
    artifactIDFromJavaPackage ⟨.java ⟨none, some ⟨"", "commons.io"⟩⟩⟩ = "commons.io" ∧
    groupIDsFromPomProperties (some ⟨"", "commons.io"⟩) = [] ∧
    startsWithDomain (trimStr (" com.example")) = true ∧
    1 < (splitOnChar '.' (trimStr (" com.example"))).length ∧
    artifactIDFromJavaPackage ⟨.java ⟨none, some ⟨"", " com.example"⟩⟩⟩ = "" ∧
    groupIDsFromPomProperties (some ⟨"", " com.example"⟩) = [] := by
  decide

/-- C4 amended: if the UNTRIMMED ArtifactID passes the domain classifier and
splits on the dot into more than one part, then artifact-ID extraction returns
the empty string and the trimmed value is emitted as a group ID; the artifact
ID commons.io fails the boundary classifier, so it is kept as the artifact ID
and is not reclassified as a group ID. -/
theorem claim_C4_amended :
    (∀ (props : PomProperties) (mf : Option JavaManifest),
      startsWithDomain props.ArtifactID = true →
      1 < (splitOnChar '.' props.ArtifactID).length →
        artifactIDFromJavaPackage ⟨.java ⟨mf, some props⟩⟩ = "" ∧
        trimStr props.ArtifactID ∈ groupIDsFromPomProperties (some props)) ∧
    artifactIDFromJavaPackage ⟨.java ⟨none, some ⟨"", "commons.io"⟩⟩⟩ = "commons.io" ∧
    groupIDsFromPomProperties (some ⟨"", "commons.io"⟩) = [] := by
  refine ⟨?_, by decide, by decide⟩
  intro props mf h hd
  obtain ⟨h2, hd2⟩ := startsWithDomain_trim props.ArtifactID h hd
  constructor
  · show (if startsWithDomain (trimStr props.ArtifactID) ∧
        (splitOnChar '.' (trimStr props.ArtifactID)).length > 1 then ""
      else trimStr props.ArtifactID) = ""
    exact if_pos ⟨h2, hd2⟩
  · show trimStr props.ArtifactID ∈
      (if startsWithDomain props.GroupID then [trimStr props.GroupID] else []) ++
        (if startsWithDomain props.ArtifactID ∧
            (splitOnChar '.' props.ArtifactID).length > 1 then
          [trimStr props.ArtifactID]
        else [])
    apply List.mem_append_right
    rw [if_pos (show startsWithDomain props.ArtifactID = true ∧
      (splitOnChar '.' props.ArtifactID).length > 1 from ⟨h, hd⟩)]
    exact List.mem_singleton.mpr rfl

/-- C4 amended witness: the artifact ID com.example (no surrounding
whitespace) passes the classifier, is dropped from artifact-ID extraction and
is emitted trimmed as a group ID. -/
theorem claim_C4_amended_witness :
    startsWithDomain ("com.example") = true ∧
    1 < (splitOnChar '.' ("com.example")).length ∧
    artifactIDFromJavaPackage ⟨.java ⟨none, some ⟨"", "com.example"⟩⟩⟩ = "" ∧
    trimStr ("com.example") ∈ groupIDsFromPomProperties (some ⟨"", "com.example"⟩) :=
  ⟨by decide, by decide,
    (claim_C4_amended.1 ⟨"", "com.example"⟩ none (by decide) (by decide)).1,
    (claim_C4_amended.1 ⟨"", "com.example"⟩ none (by decide) (by decide)).2⟩

/-- C5 counterexample: a whitespace-only Implementation-Vendor value does not
pass the domain classifier, yet no vendor candidate is added (its name
normalization is empty and empty values are never added), contradicting the
claim that every non-domain value is added as a vendor candidate. -/
theorem claim_C5_counterexample :
    startsWithDomain (" ") = false ∧
    vendorsFromJavaManifestNames
      ⟨.java ⟨some ⟨[(("Implementation-Vendor"), (" "))], []⟩, none⟩⟩ = [] ∧
    groupIDsFromJavaManifest (some ⟨[(("Implementation-Vendor"), (" "))], []⟩) = [] := by
  decide

/-- C5 amended: every Specification-Vendor or Implementation-Vendor value of a
manifest (primary mapping or any named section) is routed mutually exclusively:
if it passes the domain classifier it is emitted as a group ID and never as a
vendor-name candidate; if it does not pass, it is name-normalized and added as
a vendor candidate with disallowSubSelections = true provided the normalized
value is non-empty (values that normalize to empty yield no candidate). -/
theorem claim_C5_amended :
    (∀ (mf : JavaManifest) (pom : Option PomProperties) (c : fieldCandidate),
      c ∈ vendorsFromJavaManifestNames ⟨.java ⟨some mf, pom⟩⟩ ↔
        c.disallowSubSelections = true ∧
          ∃ name ∈ javaManifestNameFields, ∃ value, manifestValueAt mf name value ∧
            startsWithDomain value = false ∧ c.value = normalizeName value ∧
              normalizeName value ≠ "") ∧
    (∀ (mf : JavaManifest) (x : String),
      x ∈ groupIDsFromJavaManifest (some mf) ↔
        ∃ name ∈ javaManifestGroupIDFields, ∃ value, manifestValueAt mf name value ∧
          startsWithDomain value = true ∧ x = value) ∧
    (∀ (mf : JavaManifest) (name value : String), name ∈ javaManifestNameFields →
      manifestValueAt mf name value → startsWithDomain value = true →
        value ∈ groupIDsFromJavaManifest (some mf)) ∧
    fcsValues (vendorsFromJavaManifestNames
      ⟨.java ⟨some ⟨[(("Implementation-Vendor"), ("Acme Corp"))], []⟩, none⟩⟩) = ["acme_corp"] ∧
    groupIDsFromJavaManifest
      (some ⟨[(("Implementation-Vendor"), ("Acme Corp"))], []⟩) = [] ∧
    fcsValues (vendorsFromJavaManifestNames
      ⟨.java ⟨some ⟨[(("Implementation-Vendor"), ("com.acme"))], []⟩, none⟩⟩) = [] ∧
    groupIDsFromJavaManifest
      (some ⟨[(("Implementation-Vendor"), ("com.acme"))], []⟩) = ["com.acme"] := by
  refine ⟨?_, ?_, ?_, by decide, by decide, by decide, by decide⟩
  · intro mf pom c
    exact mem_vendorsFromJavaManifestNames mf pom c
  · intro mf x
    exact mem_groupIDsFromJavaManifest mf x
  · intro mf name value hname hocc hdom
    apply (mem_groupIDsFromJavaManifest mf value).mpr
    refine ⟨name, ?_, value, hocc, hdom, rfl⟩
    simp only [javaManifestNameFields, List.mem_cons, List.not_mem_nil, or_false] at hname
    rcases hname with rfl | rfl
    · decide
    · decide

/-- C5 amended witness: the non-domain value Acme Corp is routed to the vendor
side: applying the vendor characterization at that concrete manifest yields
the name-normalized candidate acme_corp with disallowSubSelections = true. -/
theorem claim_C5_amended_witness :
    ({ value := "acme_corp", disallowSubSelections := true } : fieldCandidate) ∈
      vendorsFromJavaManifestNames
        ⟨.java ⟨some ⟨[(("Implementation-Vendor"), ("Acme Corp"))], []⟩, none⟩⟩ ∧
    "com.acme" ∈ groupIDsFromJavaManifest
      (some ⟨[(("Implementation-Vendor"), ("com.acme"))], []⟩) :=
  ⟨(claim_C5_amended.1 ⟨[(("Implementation-Vendor"), ("Acme Corp"))], []⟩ none
      { value := "acme_corp", disallowSubSelections := true }).mpr
    ⟨rfl, "Implementation-Vendor", by decide, "Acme Corp",
      Or.inl (by decide), by decide, by decide, by decide⟩,
   claim_C5_amended.2.2.1 ⟨[(("Implementation-Vendor"), ("com.acme"))], []⟩
     ("Implementation-Vendor") ("com.acme") (by decide)
     (Or.inl (by decide)) (by decide)⟩

/-- C7: for every input package, neither the product candidates nor the vendor
candidates (Java or RPM path) ever contain the empty string. -/
theorem claim_C7 :
    ∀ p : Package,
      "" ∉ candidateProductsForJava p ∧
      "" ∉ fcsValues (candidateVendorsForJava p) ∧
      "" ∉ fcsValues (candidateVendorsForRPM p) := by
  intro p
  refine ⟨?_, ?_, ?_⟩
  · exact products_no_empty _ _
  · intro hmem
    rcases (fcsValues_mem_iff _ _).mp hmem with ⟨e, he, hev⟩
    exact candidateVendorsForJava_value_ne p e he hev
  · intro hmem
    rcases (fcsValues_mem_iff _ _).mp hmem with ⟨e, he, hev⟩
    exact candidateVendorsForRPM_value_ne p e he hev

/-- C8: for every input package, the product candidate sequence and the vendor
candidate value sequences (Java or RPM path) contain no duplicates. -/
theorem claim_C8 :
    ∀ p : Package,
      (candidateProductsForJava p).Nodup ∧
      (fcsValues (candidateVendorsForJava p)).Nodup ∧
      (fcsValues (candidateVendorsForRPM p)).Nodup := by
  intro p
  exact ⟨productsFromArtifactAndGroupIDs_nodup _ _,
    candidateVendorsForJava_values_nodup p,
    candidateVendorsForRPM_values_nodup p⟩

/-- C9: a package whose metadata is absent or of a non-matching variant, or a
Java package with nil manifest and nil build-coordinate records, yields an
empty result from every extraction and candidate-building operation (no error
is possible: every operation is total). -/
theorem claim_C9 :
    ∀ md : PackageMetadata,
      ((∀ jm, md ≠ .java jm) →
        candidateProductsForJava ⟨md⟩ = [] ∧
        candidateVendorsForJava ⟨md⟩ = [] ∧
        vendorsFromJavaManifestNames ⟨md⟩ = [] ∧
        groupIDsFromJavaPackage ⟨md⟩ = [] ∧
        artifactIDFromJavaPackage ⟨md⟩ = "") ∧
      ((∀ rm, md ≠ .rpmdb rm) → candidateVendorsForRPM ⟨md⟩ = []) ∧
      (∀ jm, md = .java jm → jm.Manifest = none → jm.PomProperties = none →
        candidateProductsForJava ⟨md⟩ = [] ∧
        candidateVendorsForJava ⟨md⟩ = [] ∧
        groupIDsFromJavaPackage ⟨md⟩ = []) := by
  intro md
  match md with
  | .java jm =>
    refine ⟨fun h => absurd rfl (h jm), fun _ => rfl, ?_⟩
    intro jm' heq hm hp
    injection heq with heq'
    subst heq'
    match jm with
    | ⟨mfv, pomv⟩ =>
      simp only at hm hp
      subst hm
      subst hp
      exact ⟨rfl, rfl, rfl⟩
  | .rpmdb rm =>
    exact ⟨fun _ => ⟨rfl, rfl, rfl, rfl, rfl⟩,
      fun h => absurd rfl (h rm),
      fun jm heq _ _ => PackageMetadata.noConfusion heq⟩
  | .absent =>
    exact ⟨fun _ => ⟨rfl, rfl, rfl, rfl, rfl⟩, fun _ => rfl,
      fun jm heq _ _ => PackageMetadata.noConfusion heq⟩
  | .mismatched =>
    exact ⟨fun _ => ⟨rfl, rfl, rfl, rfl, rfl⟩, fun _ => rfl,
      fun jm heq _ _ => PackageMetadata.noConfusion heq⟩

/-- C9 witness: the theorem applied at a package with absent metadata and at a
Java package with nil sub-records, with every hypothesis discharged. -/
theorem claim_C9_witness :
    candidateProductsForJava ⟨.absent⟩ = [] ∧
    candidateVendorsForJava ⟨.absent⟩ = [] ∧
    candidateVendorsForRPM ⟨.absent⟩ = [] ∧
    candidateProductsForJava ⟨.java ⟨none, none⟩⟩ = [] :=
  ⟨((claim_C9 .absent).1 (fun _ h => PackageMetadata.noConfusion h)).1,
   ((claim_C9 .absent).1 (fun _ h => PackageMetadata.noConfusion h)).2.1,
   (claim_C9 .absent).2.1 (fun _ h => PackageMetadata.noConfusion h),
   ((claim_C9 (.java ⟨none, none⟩)).2.2 ⟨none, none⟩ rfl rfl rfl).1⟩

/-- C10 counterexample: the vendor field consisting of a single space is
non-empty, yet the extractor yields no candidate at all (its title
normalization is empty, and empty values are never added), contradicting the
claim that every non-empty vendor field yields exactly one candidate. -/
theorem claim_C10_counterexample :
    (" " ≠ "") ∧ candidateVendorsForRPM ⟨.rpmdb ⟨" "⟩⟩ = [] := by
  decide

/-- C10 amended: an RPM record whose vendor field has a non-empty title
normalization yields exactly the one candidate carrying that normalized value
with disallowSubSelections = true; a vendor field that is empty or normalizes
to empty yields the empty set.  In particular vendor Red Hat, Inc. yields
exactly one title-normalized candidate. -/
theorem claim_C10_amended :
    (∀ md : RpmdbMetadata, normalizeTitle md.Vendor ≠ "" →
      candidateVendorsForRPM ⟨.rpmdb md⟩ =
        [{ value := normalizeTitle md.Vendor, disallowSubSelections := true }]) ∧
    (∀ md : RpmdbMetadata, normalizeTitle md.Vendor = "" →
      candidateVendorsForRPM ⟨.rpmdb md⟩ = []) ∧
    candidateVendorsForRPM ⟨.rpmdb ⟨"Red Hat, Inc."⟩⟩ =
      [{ value := normalizeTitle ("Red Hat, Inc."), disallowSubSelections := true }] := by
  refine ⟨?_, ?_, by decide⟩
  · intro md hne
    have hv : md.Vendor ≠ "" := by
      intro h
      exact hne (by rw [h]; rfl)
    show (if md.Vendor ≠ "" then
        fcsAdd newCPRFieldCandidateSet
          { value := normalizeTitle md.Vendor, disallowSubSelections := true }
      else newCPRFieldCandidateSet) = _
    rw [if_pos hv]
    unfold fcsAdd newCPRFieldCandidateSet
    simp [hne]
  · intro md heq
    by_cases hv : md.Vendor = ""
    · show (if md.Vendor ≠ "" then
          fcsAdd newCPRFieldCandidateSet
            { value := normalizeTitle md.Vendor, disallowSubSelections := true }
        else newCPRFieldCandidateSet) = []
      rw [if_neg (by simp [hv])]
      rfl
    · show (if md.Vendor ≠ "" then
          fcsAdd newCPRFieldCandidateSet
            { value := normalizeTitle md.Vendor, disallowSubSelections := true }
        else newCPRFieldCandidateSet) = []
      rw [if_pos hv]
      unfold fcsAdd newCPRFieldCandidateSet
      simp [heq]

/-- C10 amended witness: the theorem applied at the vendor field Red Hat, Inc.,
whose title normalization is non-empty. -/
theorem claim_C10_amended_witness :
    normalizeTitle ("Red Hat, Inc.") ≠ "" ∧
    candidateVendorsForRPM ⟨.rpmdb ⟨"Red Hat, Inc."⟩⟩ =
      [{ value := normalizeTitle ("Red Hat, Inc."), disallowSubSelections := true }] :=
  ⟨by decide, claim_C10_amended.1 ⟨"Red Hat, Inc."⟩ (by decide)⟩

end SyftCpe
